import Mathlib

/-!
Verification of `cmdscanner` (Gys/cmdscanner): a shallow embedding of the
dependency-path resolver and the filesystem pattern scanner from
`src/main.go`, together with proofs of the specification's claims.

Go byte strings are modelled as Lean `String`s (lists of `Char`); every
string this program manipulates is ASCII, so the char-level model is exact.
-/

/-! ## Char-level models of the Go `strings` functions used by the program -/

/-- Model of `strings.HasPrefix s pfx` (char-level). -/
def goStartsWith (s pfx : String) : Bool :=
  pfx.data.isPrefixOf s.data

/-- Model of `strings.HasSuffix s sfx` (char-level). -/
def goEndsWith (s sfx : String) : Bool :=
  sfx.data.isSuffixOf s.data

/-- Substring occurrence on char lists: `sub` occurs contiguously in `s`. -/
def containsSub (s sub : List Char) : Bool :=
  match s with
  | [] => sub.isEmpty
  | _ :: t => sub.isPrefixOf s || containsSub t sub

/-- Model of `strings.Contains s sub`. -/
def goContains (s sub : String) : Bool :=
  containsSub s.data sub.data

/-- Model of `strings.TrimSuffix s sfx`: remove one trailing occurrence of
`sfx` from `s` when present, else return `s` unchanged. -/
def goTrimSuffix (s sfx : String) : String :=
  if goEndsWith s sfx then ⟨s.data.take (s.data.length - sfx.data.length)⟩ else s

/-- The cutset `" \t\r\n"` of the `strings.TrimRight` call in the scanner. -/
def isCutChar (c : Char) : Bool :=
  c == ' ' || c == '\t' || c == '\r' || c == '\n'

/-- Model of `strings.TrimRight line " \t\r\n"`: drop trailing cutset chars. -/
def goTrimRight (s : String) : String :=
  ⟨(s.data.reverse.dropWhile isCutChar).reverse⟩

/-! ## Data model (src/main.go lines 20-38) -/

/-- `LineMatch` (src/main.go lines 26-31): a single matching line. -/
structure LineMatch where
  lineNumber : Nat
  content : String
  pattern : String
deriving DecidableEq

/-- `FileMatch` (src/main.go lines 20-24): all matching lines of one file. -/
structure FileMatch where
  filePath : String
  lines : List LineMatch
deriving DecidableEq

/-- `CommandPatterns` (src/main.go lines 34-38). -/
def CommandPatterns : List String :=
  [".Command(", ".RunCommand(", ".Cmd("]

/-! ## Line scanning (src/main.go lines 112-141) -/

/-- The inner pattern loop (src/main.go lines 121-133): try the patterns in
order, the first whose text is contained in the line produces the sole
`LineMatch` for that line (the loop breaks), with trailing whitespace
trimmed from the recorded content. -/
def matchLine (patterns : List String) (lineNum : Nat) (line : String) :
    Option LineMatch :=
  (patterns.find? (fun pat => goContains line pat)).map
    (fun pat => ⟨lineNum, goTrimRight line, pat⟩)

/-- The scanner loop (src/main.go lines 116-134): `lineNum` starts at 0 and
is incremented before each line is examined. -/
def scanLoop (patterns : List String) (n : Nat) : List String → List LineMatch
  | [] => []
  | l :: rest =>
    match matchLine patterns (n + 1) l with
    | some m => m :: scanLoop patterns (n + 1) rest
    | none => scanLoop patterns (n + 1) rest

/-- All `LineMatch`es of one file's lines, numbered from 1. -/
def scanFileLines (patterns : List String) (lines : List String) :
    List LineMatch :=
  scanLoop patterns 0 lines

/-! ## Path resolver (src/main.go lines 56-76) -/

/-- Modelled from the spec: the encoding of one character of a module path
by `module.EscapePath` (from `golang.org/x/mod/module`, a dependency whose
source is not part of this repository): an uppercase letter becomes `!`
followed by its lowercase form, a literal `!` becomes `!!`, and any other
character is kept as is. -/
def escapeChar (c : Char) : List Char :=
  if c.isUpper then ['!', c.toLower]
  else if c = '!' then ['!', '!'] else [c]

/-- Modelled from the spec: `module.EscapePath` applied to a well-formed
module path (the error branch of src/main.go lines 59-63 never fires for
such paths), encoding each character by `escapeChar`. -/
def escapePath (s : String) : String :=
  ⟨(s.data.map escapeChar).flatten⟩

/-- The inverse of the encoding rule, read greedily left to right: `!!`
decodes to `!`, `!` followed by a lowercase letter decodes to that letter's
uppercase form, and any other character decodes to itself. -/
def unescapeChars : List Char → List Char
  | [] => []
  | [c] => [c]
  | c₁ :: c₂ :: rest =>
    if c₁ = '!' then
      if c₂ = '!' then '!' :: unescapeChars rest
      else if c₂.isLower then c₂.toUpper :: unescapeChars rest
      else c₁ :: unescapeChars (c₂ :: rest)
    else c₁ :: unescapeChars (c₂ :: rest)

/-- String version of `unescapeChars`. -/
def unescapePath (s : String) : String :=
  ⟨unescapeChars s.data⟩

/-- The version-normalization step of `getPackageInstallPath`
(src/main.go line 66). -/
def cleanVersion (version : String) : String :=
  goTrimSuffix version "+incompatible"

/-- Modelled from the spec: Go's `filepath.Join` on two paths, as used here
(both arguments nonempty and already clean, so no `Clean` step is needed):
join with a single separator. -/
def filepathJoin (a b : String) : String :=
  if a = "" then b else if b = "" then a else a ++ "/" ++ b

/-- `getPackageInstallPath` (src/main.go lines 56-70). -/
def getPackageInstallPath (modulePath version moduleCachePath : String) :
    String :=
  filepathJoin moduleCachePath (escapePath modulePath ++ "@" ++ cleanVersion version)

/-- The possible outcomes of `os.Stat` on a path, abstracted: success, or
one of the error kinds the spec distinguishes. -/
inductive StatResult where
  | ok
  | errNotFound
  | errPermission
  | errOther
deriving DecidableEq

/-- `checkPackageExists` (src/main.go lines 72-76), over an abstract stat
oracle: `err == nil` is the sole criterion. -/
def checkPackageExists (stat : String → StatResult) (path : String) : Bool :=
  match stat path with
  | .ok => true
  | _ => false

/-- The replacement-resolution step of `main` (src/main.go lines 307-317):
an empty new-version means a local filesystem replacement, resolved to the
literal new path; otherwise the new module reference is resolved through
the cache like a requirement. -/
def resolveReplacement (newPath newVersion moduleCachePath : String) : String :=
  if newVersion = "" then newPath
  else getPackageInstallPath newPath newVersion moduleCachePath

/-! ## Filesystem model and the walk (src/main.go lines 78-147)

A filesystem subtree is a tree of named files and directories.  A file
carries the lines its scanner yields, an `openable` flag (`os.Open`
succeeds) and a `readOk` flag (`scanner.Err()` is nil after reading); a
directory carries an `openable` flag (`os.ReadDir` succeeds) and its
children. -/

inductive FSNode where
  | file (name : String) (openable : Bool) (lines : List String) (readOk : Bool)
  | dir (name : String) (openable : Bool) (children : List FSNode)

/-- The entry's base name, as `d.Name()` / `filepath.Base(path)` return it. -/
def FSNode.name : FSNode → String
  | .file n _ _ _ => n
  | .dir n _ _ => n

/-- The directory-pruning test of the walk callback (src/main.go lines
92-97): dot-directories, `testdata` and `vendor` are skipped. -/
def prunedDir (name : String) : Bool :=
  goStartsWith name "." || name == "testdata" || name == "vendor"

/-- The walk callback's action on a file entry (src/main.go lines 100-143):
skip names that are not `.go` or are `_test.go`, skip files that fail to
open, otherwise scan the lines; a `FileMatch` is appended when at least one
line matched, and the callback returns `scanner.Err()` — an error (`true`)
exactly when the read failed after opening. -/
def visitFile (patterns : List String) (path : String) (name : String)
    (openable : Bool) (lines : List String) (readOk : Bool) :
    List FileMatch × Bool :=
  if !goEndsWith name ".go" || goEndsWith name "_test.go" then ([], false)
  else if !openable then ([], false)
  else
    let lms := scanFileLines patterns lines
    (if lms.isEmpty then [] else [⟨path, lms⟩], !readOk)

mutual

/-- Model of Go's `filepath.WalkDir` recursion (`walkDir` in
`path/filepath`) specialized to the callback of
`findCommandPatternsInGoFiles`: returns the `FileMatch`es appended while
walking this subtree and whether the walk aborted with an error.  A pruned
or unopenable directory contributes nothing and no error (the callback's
`filepath.SkipDir` is converted to nil by `walkDir` for directory
entries); a file contributes via `visitFile`. -/
def walkDir (patterns : List String) (path : String) : FSNode → List FileMatch × Bool
  | .file n op ls rok => visitFile patterns path n op ls rok
  | .dir n op children =>
    if prunedDir n then ([], false)
    else if !op then ([], false)
    else walkList patterns path children

/-- The child loop of Go's `walkDir`: walk each child in order, stopping at
the first child whose walk returns a (non-`SkipDir`) error; matches
appended before the abort are kept. -/
def walkList (patterns : List String) (path : String) : List FSNode → List FileMatch × Bool
  | [] => ([], false)
  | c :: rest =>
    let r := walkDir patterns (filepathJoin path c.name) c
    if r.2 then (r.1, true)
    else
      let r₂ := walkList patterns path rest
      (r.1 ++ r₂.1, r₂.2)

end

/-- `findCommandPatternsInGoFiles` (src/main.go lines 78-147) on a rooted
subtree: the collected `FileMatch`es and whether a non-nil error was
returned. -/
def findCommandPatternsInGoFiles (rootPath : String) (root : FSNode)
    (patterns : List String) : List FileMatch × Bool :=
  walkDir patterns rootPath root

/-- Is this node a directory? -/
def FSNode.isDirB : FSNode → Bool
  | .file _ _ _ _ => false
  | .dir _ _ _ => true

mutual

/-- Remove, at every depth, the subdirectories whose name the walk prunes
(leading dot, `testdata`, `vendor`).  The root node itself is kept. -/
def pruneTree : FSNode → FSNode
  | .file n op ls r => .file n op ls r
  | .dir n op cs => .dir n op (pruneList cs)

/-- `pruneTree` on each child, dropping pruned directories. -/
def pruneList : List FSNode → List FSNode
  | [] => []
  | c :: rest =>
    if c.isDirB && prunedDir c.name then pruneList rest
    else pruneTree c :: pruneList rest

end

mutual

/-- Remove, at every depth, the files the walk never scans: names not
ending in `.go`, or ending in `_test.go`.  Directories are kept. -/
def dropNonGo : FSNode → FSNode
  | .file n op ls r => .file n op ls r
  | .dir n op cs => .dir n op (dropNonGoList cs)

/-- `dropNonGo` on each child, dropping non-Go and test files. -/
def dropNonGoList : List FSNode → List FSNode
  | [] => []
  | c :: rest =>
    match c with
    | .file n op ls r =>
      if goEndsWith n ".go" && !goEndsWith n "_test.go" then
        FSNode.file n op ls r :: dropNonGoList rest
      else dropNonGoList rest
    | .dir n op cs => FSNode.dir n op (dropNonGoList cs) :: dropNonGoList rest

end

mutual

/-- Every file in the subtree reads to the end without error. -/
def allRead : FSNode → Bool
  | .file _ _ _ rok => rok
  | .dir _ _ cs => allReadList cs

/-- `allRead` over a list of children. -/
def allReadList : List FSNode → Bool
  | [] => true
  | c :: rest => allRead c && allReadList rest

end

/-- The invariant of every produced `FileMatch`: a nonempty line list, with
positive, strictly increasing line numbers. -/
def goodFM (fm : FileMatch) : Prop :=
  fm.lines ≠ [] ∧ (∀ lm ∈ fm.lines, 0 < lm.lineNumber) ∧
    fm.lines.Pairwise (fun a b => a.lineNumber < b.lineNumber)

theorem pruneTree_name (t : FSNode) : (pruneTree t).name = t.name := by
  cases t <;> simp [pruneTree, FSNode.name]

theorem walkList_skip (pats : List String) (path : String) {c : FSNode}
    (rest : List FSNode)
    (h : walkDir pats (filepathJoin path c.name) c = ([], false)) :
    walkList pats path (c :: rest) = walkList pats path rest := by
  simp [walkList, h]

mutual

theorem walkDir_prune (pats : List String) (path : String) (t : FSNode) :
    walkDir pats path (pruneTree t) = walkDir pats path t := by
  cases t with
  | file n op ls r => rfl
  | dir n op cs =>
    simp only [pruneTree, walkDir]
    by_cases h : prunedDir n = true
    · simp [h]
    · by_cases hop : op <;> simp [h, hop, walkList_prune pats path cs]

theorem walkList_prune (pats : List String) (path : String) (l : List FSNode) :
    walkList pats path (pruneList l) = walkList pats path l := by
  cases l with
  | nil => rfl
  | cons c rest =>
    by_cases h : c.isDirB && prunedDir c.name
    · rw [show pruneList (c :: rest) = pruneList rest by simp [pruneList, h]]
      rw [walkList_prune pats path rest]
      refine (walkList_skip pats path rest ?_).symm
      cases c with
      | file n op ls r => simp [FSNode.isDirB] at h
      | dir n op cs =>
        simp only [FSNode.isDirB, Bool.true_and, FSNode.name] at h
        simp [walkDir, h]
    · rw [show pruneList (c :: rest) = pruneTree c :: pruneList rest by
        simp [pruneList, h]]
      simp only [walkList, pruneTree_name, walkDir_prune pats (filepathJoin path c.name) c,
        walkList_prune pats path rest]

end

mutual

theorem walkDir_dropNonGo (pats : List String) (path : String) (t : FSNode) :
    walkDir pats path (dropNonGo t) = walkDir pats path t := by
  cases t with
  | file n op ls r => rfl
  | dir n op cs =>
    simp only [dropNonGo, walkDir]
    by_cases h : prunedDir n = true
    · simp [h]
    · by_cases hop : op <;> simp [h, hop, walkList_dropNonGo pats path cs]

theorem walkList_dropNonGo (pats : List String) (path : String) (l : List FSNode) :
    walkList pats path (dropNonGoList l) = walkList pats path l := by
  cases l with
  | nil => simp [dropNonGoList]
  | cons c rest =>
    cases c with
    | file n op ls r =>
      by_cases h : goEndsWith n ".go" && !goEndsWith n "_test.go"
      · rw [show dropNonGoList (FSNode.file n op ls r :: rest) =
            FSNode.file n op ls r :: dropNonGoList rest by simp [dropNonGoList, h]]
        simp only [walkList, walkList_dropNonGo pats path rest]
      · rw [show dropNonGoList (FSNode.file n op ls r :: rest) =
            dropNonGoList rest by simp [dropNonGoList, h]]
        rw [walkList_dropNonGo pats path rest]
        refine (walkList_skip pats path rest ?_).symm
        simp only [Bool.and_eq_true, Bool.not_eq_true', not_and,
          Bool.not_eq_true] at h
        simp only [walkDir, visitFile]
        cases hgo : goEndsWith n ".go" with
        | false => simp [hgo]
        | true => simp [hgo, h hgo]
    | dir n op cs =>
      rw [show dropNonGoList (FSNode.dir n op cs :: rest) =
          dropNonGo (FSNode.dir n op cs) :: dropNonGoList rest by
        simp [dropNonGoList, dropNonGo]]
      simp only [walkList]
      rw [show (dropNonGo (FSNode.dir n op cs)).name = (FSNode.dir n op cs).name by
            simp [dropNonGo, FSNode.name],
        walkDir_dropNonGo pats (filepathJoin path (FSNode.dir n op cs).name)
          (FSNode.dir n op cs),
        walkList_dropNonGo pats path rest]

end

mutual

theorem walkDir_allRead (pats : List String) (path : String) (t : FSNode)
    (h : allRead t = true) : (walkDir pats path t).2 = false := by
  cases t with
  | file n op ls rok =>
    simp only [allRead] at h
    simp only [walkDir, visitFile]
    by_cases h1 : !goEndsWith n ".go" || goEndsWith n "_test.go"
    · simp [h1]
    · by_cases h2 : op <;> simp [h1, h2, h]
  | dir n op cs =>
    simp only [allRead] at h
    simp only [walkDir]
    by_cases h1 : prunedDir n = true
    · simp [h1]
    · by_cases h2 : op <;> simp [h1, h2, walkList_allRead pats path cs h]

theorem walkList_allRead (pats : List String) (path : String) (l : List FSNode)
    (h : allReadList l = true) : (walkList pats path l).2 = false := by
  cases l with
  | nil => rfl
  | cons c rest =>
    simp only [allReadList, Bool.and_eq_true] at h
    have hc := walkDir_allRead pats (filepathJoin path c.name) c h.1
    simp only [walkList, hc]
    simpa using walkList_allRead pats path rest h.2

end

theorem matchLine_lineNumber {patterns : List String} {k : Nat} {line : String}
    {m : LineMatch} (h : matchLine patterns k line = some m) : m.lineNumber = k := by
  simp only [matchLine, Option.map_eq_some'] at h
  obtain ⟨pat, _, h2⟩ := h
  rw [← h2]

theorem scanLoop_lt (patterns : List String) :
    ∀ (ls : List String) (n : Nat) (m : LineMatch),
      m ∈ scanLoop patterns n ls → n < m.lineNumber := by
  intro ls
  induction ls with
  | nil => intro n m h; simp [scanLoop] at h
  | cons l rest ih =>
    intro n m h
    simp only [scanLoop] at h
    split at h
    next m' hm =>
      rcases List.mem_cons.mp h with rfl | hmem
      · rw [matchLine_lineNumber hm]; exact Nat.lt_succ_self n
      · exact Nat.lt_of_succ_lt (ih (n + 1) m hmem)
    next => exact Nat.lt_of_succ_lt (ih (n + 1) m h)

theorem scanLoop_pairwise (patterns : List String) :
    ∀ (ls : List String) (n : Nat),
      (scanLoop patterns n ls).Pairwise (fun a b => a.lineNumber < b.lineNumber) := by
  intro ls
  induction ls with
  | nil => intro n; simp [scanLoop]
  | cons l rest ih =>
    intro n
    simp only [scanLoop]
    split
    next m' hm =>
      refine List.Pairwise.cons ?_ (ih (n + 1))
      intro b hb
      rw [matchLine_lineNumber hm]
      exact scanLoop_lt patterns rest (n + 1) b hb
    next => exact ih (n + 1)

theorem pairwise_filter_length_le (k : Nat) :
    ∀ l : List LineMatch,
      l.Pairwise (fun a b => a.lineNumber < b.lineNumber) →
      (l.filter (fun lm => lm.lineNumber == k)).length ≤ 1 := by
  intro l
  induction l with
  | nil => intro h; simp
  | cons a t ih =>
    intro h
    rcases List.pairwise_cons.mp h with ⟨ha, ht⟩
    by_cases hk : (a.lineNumber == k) = true
    · have hnil : t.filter (fun lm => lm.lineNumber == k) = [] := by
        rw [List.filter_eq_nil_iff]
        intro b hb
        have hlt := ha b hb
        simp only [beq_iff_eq] at hk ⊢
        omega
      simp [List.filter_cons, hk, hnil]
    · simp only [List.filter_cons, hk, if_false, Bool.false_eq_true]
      exact ih ht

theorem visitFile_good (pats : List String) (path n : String) (op : Bool)
    (ls : List String) (rok : Bool) :
    ∀ fm ∈ (visitFile pats path n op ls rok).1, goodFM fm := by
  intro fm hfm
  simp only [visitFile] at hfm
  split at hfm
  · simp at hfm
  · split at hfm
    · simp at hfm
    · simp only at hfm
      split at hfm
      · simp at hfm
      next hne =>
        rcases List.mem_singleton.mp hfm with rfl
        refine ⟨by simpa using hne, ?_, scanLoop_pairwise pats ls 0⟩
        intro lm hlm
        exact scanLoop_lt pats ls 0 lm hlm

mutual

theorem walkDir_good (pats : List String) (path : String) (t : FSNode) :
    ∀ fm ∈ (walkDir pats path t).1, goodFM fm := by
  cases t with
  | file n op ls rok =>
    intro fm hfm
    exact visitFile_good pats path n op ls rok fm hfm
  | dir n op cs =>
    intro fm hfm
    simp only [walkDir] at hfm
    split at hfm
    · simp at hfm
    · split at hfm
      · simp at hfm
      · exact walkList_good pats path cs fm hfm

theorem walkList_good (pats : List String) (path : String) (l : List FSNode) :
    ∀ fm ∈ (walkList pats path l).1, goodFM fm := by
  cases l with
  | nil => intro fm hfm; simp [walkList] at hfm
  | cons c rest =>
    intro fm hfm
    simp only [walkList] at hfm
    split at hfm
    · exact walkDir_good pats (filepathJoin path c.name) c fm hfm
    · rcases List.mem_append.mp hfm with hfm1 | hfm2
      · exact walkDir_good pats (filepathJoin path c.name) c fm hfm1
      · exact walkList_good pats path rest fm hfm2

end

theorem upper_toNat_bounds {c : Char} (h : c.isUpper = true) :
    65 ≤ c.toNat ∧ c.toNat ≤ 90 := by
  simp only [Char.isUpper, Bool.and_eq_true, decide_eq_true_eq] at h
  obtain ⟨h1, h2⟩ := h
  exact ⟨UInt32.le_toNat_of_le (by decide) h1, UInt32.toNat_le_of_le (by decide) h2⟩

theorem upper_ofNat_facts :
    ∀ n : Nat, 65 ≤ n → n ≤ 90 →
      (Char.ofNat n).toLower ≠ '!' ∧ (Char.ofNat n).toLower.isLower = true ∧
      (Char.ofNat n).toLower.isUpper = false ∧
      (Char.ofNat n).toLower.toUpper = Char.ofNat n := by
  intro n h1 h2
  interval_cases n <;> exact ⟨by decide, by decide, by decide, by decide⟩

theorem toLower_facts {c : Char} (h : c.isUpper = true) :
    c.toLower ≠ '!' ∧ c.toLower.isLower = true ∧ c.toLower.isUpper = false ∧
      c.toLower.toUpper = c := by
  obtain ⟨h1, h2⟩ := upper_toNat_bounds h
  have hfacts := upper_ofNat_facts c.toNat h1 h2
  rwa [Char.ofNat_toNat] at hfacts

theorem unescape_step (c : Char) (xs : List Char) :
    unescapeChars (escapeChar c ++ xs) = c :: unescapeChars xs := by
  by_cases hu : c.isUpper = true
  · obtain ⟨hne, hlow, _, hup⟩ := toLower_facts hu
    simp [escapeChar, hu, unescapeChars, hne, hlow, hup]
  · by_cases hbang : c = '!'
    · simp [escapeChar, hu, hbang, unescapeChars]
    · simp only [escapeChar, hu, if_false, hbang, Bool.false_eq_true,
        List.cons_append, List.nil_append]
      cases xs with
      | nil => simp [unescapeChars]
      | cons x rest => simp [unescapeChars, hbang]

theorem unescape_escape_list (l : List Char) :
    unescapeChars ((l.map escapeChar).flatten) = l := by
  induction l with
  | nil => rfl
  | cons c t ih => simp only [List.map_cons, List.flatten_cons, unescape_step, ih]

theorem escapePath_no_upper (P : String) :
    (escapePath P).data.all (fun c => !c.isUpper) = true := by
  rw [List.all_eq_true]
  intro c hc
  have hc2 : c ∈ (P.data.map escapeChar).flatten := hc
  rw [List.mem_flatten] at hc2
  obtain ⟨l, hl, hcl⟩ := hc2
  rw [List.mem_map] at hl
  obtain ⟨d, _, rfl⟩ := hl
  by_cases hu : d.isUpper = true
  · simp only [escapeChar, hu, if_true, List.mem_cons, List.mem_singleton] at hcl
    rcases hcl with rfl | rfl | h
    · decide
    · simp [(toLower_facts hu).2.2.1]
    · simp at h
  · by_cases hbang : d = '!'
    · have hc3 : c = '!' := by simpa [escapeChar, hu, hbang] using hcl
      subst hc3
      decide
    · simp only [escapeChar, hu, hbang, if_false, Bool.false_eq_true,
        List.mem_singleton] at hcl
      subst hcl
      simp [hu]

/-- C2: for every module path, the encoded directory segment used by
`getPackageInstallPath` contains no uppercase letters and decoding it by
the inverse of the encoding rule yields the module path back; concretely,
resolving `example.com/Foo/Bar` at `v1.2.3` under cache root `/cache`
yields `/cache/example.com/!foo/!bar@v1.2.3`. -/
theorem escapePath_round_trip :
    (∀ P : String, (escapePath P).data.all (fun c => !c.isUpper) = true
        ∧ unescapePath (escapePath P) = P)
    ∧ getPackageInstallPath "example.com/Foo/Bar" "v1.2.3" "/cache" =
        "/cache/example.com/!foo/!bar@v1.2.3" := by
  refine ⟨fun P => ⟨escapePath_no_upper P, ?_⟩, by decide⟩
  show String.mk (unescapeChars (P.data.map escapeChar).flatten) = P
  rw [unescape_escape_list]

theorem find?_first {α : Type} (p : α → Bool) :
    ∀ (l : List α) (a : α), l.find? p = some a →
      ∃ pre post, l = pre ++ a :: post ∧ p a = true ∧ ∀ x ∈ pre, p x = false := by
  intro l
  induction l with
  | nil => intro a h; simp at h
  | cons b t ih =>
    intro a h
    by_cases hb : p b = true
    · rw [List.find?_cons_of_pos _ hb] at h
      obtain rfl : b = a := by injection h
      exact ⟨[], t, rfl, hb, by simp⟩
    · rw [List.find?_cons_of_neg _ hb] at h
      obtain ⟨pre, post, rfl, hpa, hpre⟩ := ih a h
      refine ⟨b :: pre, post, rfl, hpa, ?_⟩
      intro x hx
      rcases List.mem_cons.mp hx with rfl | hx2
      · simpa using hb
      · exact hpre x hx2

/-- C1: a scanned file yields at most one `LineMatch` per line number, and
whenever the pattern loop produces a match for a line, the recorded pattern
is the first pattern of the list that is a substring of the line: it splits
the pattern list so that every earlier pattern does not occur in the line. -/
theorem scan_first_pattern_wins (patterns lines : List String) (k n : Nat)
    (line : String) (m : LineMatch) :
    ((scanFileLines patterns lines).filter (fun lm => lm.lineNumber == k)).length ≤ 1
    ∧ (matchLine patterns n line = some m →
        ∃ pre post, patterns = pre ++ m.pattern :: post
          ∧ goContains line m.pattern = true
          ∧ ∀ q ∈ pre, goContains line q = false) := by
  constructor
  · exact pairwise_filter_length_le k _ (scanLoop_pairwise patterns lines 0)
  · intro h
    simp only [matchLine, Option.map_eq_some'] at h
    obtain ⟨pat, hfind, hm⟩ := h
    obtain ⟨pre, post, hsplit, hpa, hpre⟩ :=
      find?_first (fun pat => goContains line pat) patterns pat hfind
    subst hm
    exact ⟨pre, post, hsplit, hpa, hpre⟩

/-- Witness for C1 on a line containing both `.Command(` and `.Cmd(`: the
produced match carries `.Command(`, the pattern listed first. -/
theorem scan_first_pattern_wins_witness :
    ((scanFileLines [".Command(", ".Cmd("] ["a.Cmd(x); b.Command(y)"]).filter
        (fun lm => lm.lineNumber == 1)).length ≤ 1
    ∧ ∃ pre post, [".Command(", ".Cmd("] = pre ++ ".Command(" :: post
        ∧ goContains "a.Cmd(x); b.Command(y)" ".Command(" = true
        ∧ ∀ q ∈ pre, goContains "a.Cmd(x); b.Command(y)" q = false :=
  ⟨(scan_first_pattern_wins [".Command(", ".Cmd("] ["a.Cmd(x); b.Command(y)"] 1 1
      "a.Cmd(x); b.Command(y)" ⟨1, "a.Cmd(x); b.Command(y)", ".Command("⟩).1,
   (scan_first_pattern_wins [".Command(", ".Cmd("] [] 1 1
      "a.Cmd(x); b.Command(y)" ⟨1, "a.Cmd(x); b.Command(y)", ".Command("⟩).2 (by decide)⟩

theorem take_append_length (l₁ l₂ : List Char) :
    (l₁ ++ l₂).take ((l₁ ++ l₂).length - l₂.length) = l₁ := by
  rw [List.length_append]
  have h : l₁.length + l₂.length - l₂.length = l₁.length := by omega
  rw [h, List.take_left]

theorem goEndsWith_append (t s : String) : goEndsWith (t ++ s) s = true := by
  simp [goEndsWith, String.data_append, List.isSuffixOf_iff_suffix,
    List.suffix_append]

/-- C3: the version segment of the resolved directory name is the input
version with one trailing `+incompatible` suffix removed when present, and
is the input version unchanged otherwise. -/
theorem cleanVersion_spec :
    (∀ m c t : String, getPackageInstallPath m (t ++ "+incompatible") c =
        filepathJoin c (escapePath m ++ "@" ++ t))
    ∧ ∀ m c v : String, goEndsWith v "+incompatible" = false →
        getPackageInstallPath m v c = filepathJoin c (escapePath m ++ "@" ++ v) := by
  constructor
  · intro m c t
    have h : cleanVersion (t ++ "+incompatible") = t := by
      rw [cleanVersion, goTrimSuffix, if_pos (goEndsWith_append t "+incompatible")]
      show String.mk _ = t
      rw [String.data_append, take_append_length]
    rw [getPackageInstallPath, h]
  · intro m c v hv
    rw [getPackageInstallPath,
      show cleanVersion v = v from by simp [cleanVersion, goTrimSuffix, hv]]

/-- Witness for C3: `v1.2.3` does not end in `+incompatible` and resolves
unchanged; the suffixed form is handled by the first, hypothesis-free
conjunct of the theorem. -/
theorem cleanVersion_spec_witness :
    goEndsWith "v1.2.3" "+incompatible" = false
    ∧ getPackageInstallPath "m" "v1.2.3" "/c" =
        filepathJoin "/c" (escapePath "m" ++ "@" ++ "v1.2.3") :=
  ⟨by decide, cleanVersion_spec.2 "m" "/c" "v1.2.3" (by decide)⟩

/-- C6: a replace directive with an empty new-version resolves to the
literal new path, for every cache root alike (neither the cache root nor
the path encoding is consulted), also when the path contains characters the
cache encoding would rewrite. -/
theorem resolveReplacement_local :
    (∀ newPath cache : String, resolveReplacement newPath "" cache = newPath)
    ∧ (∀ newPath c₁ c₂ : String,
        resolveReplacement newPath "" c₁ = resolveReplacement newPath "" c₂)
    ∧ resolveReplacement "./local/Pkg" "" "/cache" = "./local/Pkg" := by
  have h : ∀ p c : String, resolveReplacement p "" c = p := by
    intro p c
    simp [resolveReplacement]
  exact ⟨h, fun p c₁ c₂ => by rw [h, h], h "./local/Pkg" "/cache"⟩

/-- C7: the existence check is true exactly when the stat succeeds, and any
two failing stats, whatever their error kind, give the same answer. -/
theorem checkPackageExists_spec :
    (∀ (stat : String → StatResult) (path : String),
        checkPackageExists stat path = true ↔ stat path = .ok)
    ∧ ∀ (st₁ st₂ : String → StatResult) (p₁ p₂ : String),
        st₁ p₁ ≠ .ok → st₂ p₂ ≠ .ok →
        checkPackageExists st₁ p₁ = checkPackageExists st₂ p₂ := by
  have hbase : ∀ (stat : String → StatResult) (path : String),
      checkPackageExists stat path = true ↔ stat path = .ok := by
    intro stat path
    simp only [checkPackageExists]
    cases h : stat path <;> simp
  refine ⟨hbase, ?_⟩
  intro st₁ st₂ p₁ p₂ h₁ h₂
  have e₁ : checkPackageExists st₁ p₁ = false := by
    rcases hc : checkPackageExists st₁ p₁ with _ | _
    · rfl
    · exact absurd ((hbase st₁ p₁).mp hc) h₁
  have e₂ : checkPackageExists st₂ p₂ = false := by
    rcases hc : checkPackageExists st₂ p₂ with _ | _
    · rfl
    · exact absurd ((hbase st₂ p₂).mp hc) h₂
  rw [e₁, e₂]

/-- Witness for C7: a not-found stat and a permission-error stat are both
reported as "not present". -/
theorem checkPackageExists_spec_witness :
    (fun _ : String => StatResult.errNotFound) "/a" ≠ StatResult.ok
    ∧ checkPackageExists (fun _ => StatResult.errNotFound) "/a" =
        checkPackageExists (fun _ => StatResult.errPermission) "/b" :=
  ⟨by decide,
   checkPackageExists_spec.2 (fun _ => StatResult.errNotFound)
     (fun _ => StatResult.errPermission) "/a" "/b" (by decide) (by decide)⟩

/-- C10: when the root directory itself has a pruned name (leading dot,
`testdata` or `vendor`), the scan returns no matches and no error, whatever
the tree below it holds. -/
theorem scan_prunes_root (pats : List String) (path name : String)
    (op : Bool) (children : List FSNode)
    (h : goStartsWith name "." = true ∨ name = "testdata" ∨ name = "vendor") :
    findCommandPatternsInGoFiles path (.dir name op children) pats = ([], false) := by
  have hp : prunedDir name = true := by
    rcases h with h | h | h <;> simp [prunedDir, h]
  simp [findCommandPatternsInGoFiles, walkDir, hp]

/-- Witness for C10: a root named `testdata` containing a matching Go file
yields the empty result and no error. -/
theorem scan_prunes_root_witness :
    (goStartsWith "testdata" "." = true ∨ "testdata" = "testdata"
      ∨ "testdata" = "vendor")
    ∧ findCommandPatternsInGoFiles "/r"
        (.dir "testdata" true [.file "a.go" true ["x.Command(y)"] true])
        CommandPatterns = ([], false) :=
  ⟨Or.inr (Or.inl rfl),
   scan_prunes_root CommandPatterns "/r" "testdata" true
     [.file "a.go" true ["x.Command(y)"] true] (Or.inr (Or.inl rfl))⟩

/-- C5: the scan result on any tree equals the result on the tree from
which every subdirectory with a pruned name (leading dot, `testdata`,
`vendor`) has been removed, at every depth: the walk never descends into
such directories and no `FileMatch` can originate below one. -/
theorem scan_never_descends_pruned (pats : List String) (path : String)
    (t : FSNode) :
    findCommandPatternsInGoFiles path t pats =
      findCommandPatternsInGoFiles path (pruneTree t) pats :=
  (walkDir_prune pats path t).symm

/-- C9: the scan result on any tree, for any pattern list, equals the
result on the tree from which every file not ending in `.go`, and every
file ending in `_test.go`, has been removed: such files are never scanned,
unconditionally. -/
theorem scan_only_go_files (pats : List String) (path : String) (t : FSNode) :
    findCommandPatternsInGoFiles path t pats =
      findCommandPatternsInGoFiles path (dropNonGo t) pats :=
  (walkDir_dropNonGo pats path t).symm

/-- C8: every `FileMatch` the scan produces has a nonempty list of line
matches, every line number in it is positive, and the line numbers are
strictly increasing in file order. -/
theorem scan_result_invariant (pats : List String) (path : String)
    (t : FSNode) (fm : FileMatch)
    (h : fm ∈ (findCommandPatternsInGoFiles path t pats).1) :
    fm.lines ≠ [] ∧ (∀ lm ∈ fm.lines, 0 < lm.lineNumber) ∧
      fm.lines.Pairwise (fun a b => a.lineNumber < b.lineNumber) :=
  walkDir_good pats path t fm h

/-- Witness for C8 on a two-line Go file whose lines both match. -/
theorem scan_result_invariant_witness :
    (⟨"/r/a.go", [⟨1, "x.Command(a)", ".Command("⟩, ⟨2, "y.Cmd(b)", ".Cmd("⟩]⟩ : FileMatch) ∈
      (findCommandPatternsInGoFiles "/r"
        (.dir "r" true [.file "a.go" true ["x.Command(a)", "y.Cmd(b)"] true])
        [".Command(", ".Cmd("]).1
    ∧ ([⟨1, "x.Command(a)", ".Command("⟩, ⟨2, "y.Cmd(b)", ".Cmd("⟩] : List LineMatch) ≠ []
    ∧ (∀ lm ∈ ([⟨1, "x.Command(a)", ".Command("⟩, ⟨2, "y.Cmd(b)", ".Cmd("⟩] : List LineMatch),
        0 < lm.lineNumber)
    ∧ ([⟨1, "x.Command(a)", ".Command("⟩, ⟨2, "y.Cmd(b)", ".Cmd("⟩] : List LineMatch).Pairwise
        (fun a b => a.lineNumber < b.lineNumber) :=
  ⟨by decide,
   (scan_result_invariant [".Command(", ".Cmd("] "/r"
      (.dir "r" true [.file "a.go" true ["x.Command(a)", "y.Cmd(b)"] true])
      ⟨"/r/a.go", [⟨1, "x.Command(a)", ".Command("⟩, ⟨2, "y.Cmd(b)", ".Cmd("⟩]⟩
      (by decide)).1,
   (scan_result_invariant [".Command(", ".Cmd("] "/r"
      (.dir "r" true [.file "a.go" true ["x.Command(a)", "y.Cmd(b)"] true])
      ⟨"/r/a.go", [⟨1, "x.Command(a)", ".Command("⟩, ⟨2, "y.Cmd(b)", ".Cmd("⟩]⟩
      (by decide)).2.1,
   (scan_result_invariant [".Command(", ".Cmd("] "/r"
      (.dir "r" true [.file "a.go" true ["x.Command(a)", "y.Cmd(b)"] true])
      ⟨"/r/a.go", [⟨1, "x.Command(a)", ".Command("⟩, ⟨2, "y.Cmd(b)", ".Cmd("⟩]⟩
      (by decide)).2.2⟩

/-- C4, counterexample to the claim as stated: in a tree whose root opens
fine, a file whose read fails after opening (`a.go`, scanner error) makes
the scan return an error, and the readable sibling `b.go` is missing from
the results — so per-file read errors are not swallowed, and an error does
not imply an unopenable root. -/
theorem scan_error_semantics_cex :
    (findCommandPatternsInGoFiles "/r"
      (.dir "r" true
        [.file "a.go" true ["x.Command(y)"] false,
         .file "b.go" true ["z.Command(w)"] true]) CommandPatterns).2 = true
    ∧ (findCommandPatternsInGoFiles "/r"
      (.dir "r" true
        [.file "a.go" true ["x.Command(y)"] false,
         .file "b.go" true ["z.Command(w)"] true]) CommandPatterns).1.map
        (fun fm => fm.filePath) = ["/r/a.go"] :=
  ⟨by decide, by decide⟩

/-- C4 (amended): the scan returns an empty result and no error when the
root directory cannot be opened; it returns no error whenever every file in
the tree reads to the end; and a file that cannot be opened is skipped
silently, leaving the walk of the remaining entries unchanged.  (A read
error after a successful open, by contrast, aborts the scan with an
error — see the counterexample.) -/
theorem scan_error_semantics :
    (∀ (pats : List String) (path name : String) (children : List FSNode),
        findCommandPatternsInGoFiles path (.dir name false children) pats =
          ([], false))
    ∧ (∀ (pats : List String) (path : String) (t : FSNode),
        allRead t = true → (findCommandPatternsInGoFiles path t pats).2 = false)
    ∧ ∀ (pats : List String) (path n : String) (ls : List String) (r : Bool)
        (pre post : List FSNode),
        walkList pats path (pre ++ .file n false ls r :: post) =
          walkList pats path (pre ++ post) := by
  refine ⟨?_, ?_, ?_⟩
  · intro pats path name children
    show walkDir pats path (.dir name false children) = ([], false)
    simp only [walkDir]
    by_cases hp : prunedDir name = true <;> simp [hp]
  · intro pats path t h
    exact walkDir_allRead pats path t h
  · intro pats path n ls r pre post
    induction pre with
    | nil =>
      simp only [List.nil_append]
      refine walkList_skip pats path post ?_
      simp only [walkDir, FSNode.name, visitFile]
      by_cases hg : (!goEndsWith n ".go" || goEndsWith n "_test.go") = true <;>
        simp [hg]
    | cons c pre ih =>
      simp only [List.cons_append, walkList]
      have ih2 : walkList pats path (pre.append (FSNode.file n false ls r :: post)) =
          walkList pats path (pre.append post) := ih
      rw [ih2]

/-- Witness for C4's amended claim: a tree whose single Go file reads fine
yields no error. -/
theorem scan_error_semantics_witness :
    allRead (.dir "r" true [.file "a.go" true ["x.Command(a)"] true]) = true
    ∧ (findCommandPatternsInGoFiles "/r"
        (.dir "r" true [.file "a.go" true ["x.Command(a)"] true])
        CommandPatterns).2 = false :=
  ⟨by decide,
   scan_error_semantics.2.1 CommandPatterns "/r"
     (.dir "r" true [.file "a.go" true ["x.Command(a)"] true]) (by decide)⟩
